import Mathlib

/-!
Shallow embedding of the distil color-palette pipeline (src/lib.rs).

Modelling conventions:
* Machine integers (u8, u32, usize) are ℕ; 32-bit overflow is modelled with
  an explicit `% 2 ^ 32` where it matters (the scale guard).
* f32 arithmetic on Lab axes is idealised as exact arithmetic over ℚ.
  The one place where the f32 round-trip of an integer is observable
  (the count update in the merge pass, `count as f32 ... as usize`) is
  modelled bit-faithfully by `f32RoundNat`.
* External crates (image, color_quant, lab, delta_e) are collaborators:
  the NeuQuant quantizer, the RGB→Lab / Lab→RGB conversions and the
  ΔE2000 distance are abstract parameters of the pipeline; their crate
  contracts (e.g. the color map of `NeuQuant::new(_, n, _)` has exactly
  `n` entries) appear as hypotheses.
-/

namespace DistilSpec

/-- An RGB triple, one byte per channel (`image::Rgb<u8>`). -/
structure Rgb where
  r : ℕ
  g : ℕ
  b : ℕ
deriving DecidableEq, Repr

/-- An RGBA quadruple (`image::Rgba<u8>`). -/
structure Rgba where
  r : ℕ
  g : ℕ
  b : ℕ
  a : ℕ
deriving DecidableEq, Repr

/-- A CIE Lab color (`lab::Lab`); the three f32 axes are idealised as ℚ. -/
structure Lab where
  l : ℚ
  a : ℚ
  b : ℚ
deriving DecidableEq, Repr

-- The tunable constants of src/lib.rs.
def MAX_SAMPLE_COUNT : ℕ := 1000

def NQ_PALETTE_SIZE : ℕ := 256

def MIN_BLACK : ℕ := 8

def MAX_WHITE : ℕ := 247

def MIN_DISTANCE_FOR_UNIQUENESS : ℚ := 10

/-- `has_transparency` from src/lib.rs: the pixel is not fully opaque. -/
def has_transparency (rgba : Rgba) : Bool :=
  rgba.a != 255

/-- `is_black` from src/lib.rs: all three channels below `MIN_BLACK`. -/
def is_black (rgba : Rgba) : Bool :=
  decide (rgba.r < MIN_BLACK) && decide (rgba.g < MIN_BLACK) && decide (rgba.b < MIN_BLACK)

/-- `is_white` from src/lib.rs: all three channels above `MAX_WHITE`. -/
def is_white (rgba : Rgba) : Bool :=
  decide (rgba.r > MAX_WHITE) && decide (rgba.g > MAX_WHITE) && decide (rgba.b > MAX_WHITE)

/-- The loop guard of `get_pixels`: a pixel is kept when it is neither
transparent nor near-black nor near-white. -/
def keepPixel (px : Rgba) : Bool :=
  !(has_transparency px || is_black px || is_white px)

/-- The four channels pushed for a surviving pixel (`px.channels()` of an
`Rgba<u8>` pixel is `[r, g, b, a]`). -/
def pixelChannels (px : Rgba) : List ℕ :=
  [px.r, px.g, px.b, px.a]

/-- The error enum `DistilError` of src/lib.rs.  The `image::ImageError`
payload of the first variant is opaque to this crate; it is modelled as a
numeric code. -/
inductive DistilError where
  | ioErr (path : String) (err : ℕ)
  | unsupportedFormat
  | uninteresting
deriving DecidableEq, Repr

/-- `get_pixels` from src/lib.rs: walk the image in order, push the four
channels of every surviving pixel, and fail with `Uninteresting` when
nothing survived. -/
def get_pixels (img : List Rgba) : Except DistilError (List ℕ) :=
  let pixels := img.foldl (fun acc px => if keepPixel px then acc ++ pixelChannels px else acc) []
  if pixels.length = 0 then .error .uninteresting else .ok pixels

/-- The number of pixels that survive the interestingness filter. -/
def survivorCount (img : List Rgba) : ℕ :=
  (img.filter keepPixel).length

/-- The `image::ImageFormat` enum of the image crate (0.x era). -/
inductive ImageFormat where
  | png | jpeg | gif | webp | pnm | tiff | tga | bmp | ico | hdr
deriving DecidableEq, Repr

/-- The outcome of opening a file and sniffing its leading bytes:
the file may be unopenable, openable but of no recognizable format, or
sniffed as some format. -/
inductive FileProbe where
  | noFile
  | unrecognized
  | sniffed (f : ImageFormat)
deriving DecidableEq, Repr

/-- `get_image_format` from src/lib.rs: any failure to open or to guess the
format falls through to `UnsupportedFormat`. -/
def get_image_format (probe : FileProbe) : Except DistilError ImageFormat :=
  match probe with
  | .sniffed f => .ok f
  | _ => .error .unsupportedFormat

/-- `is_supported_format` from src/lib.rs: only PNG and JPEG pass. -/
def is_supported_format (format : ImageFormat) : Except DistilError Unit :=
  match format with
  | .png => .ok ()
  | .jpeg => .ok ()
  | _ => .error .unsupportedFormat

/-- Rust `n as f32` for an unsigned integer, followed (where used) by a
truncating `as usize` cast back: round `n` to 24 significant bits,
to the nearest value, ties to even.  Exact for `n < 2 ^ 24`. -/
def sigShift : ℕ → ℕ → ℕ
  | 0, _ => 0
  | fuel + 1, n => if n < 2 ^ 24 then 0 else sigShift fuel (n / 2) + 1

/-- Round a natural number to the nearest f32-representable value
(24-bit significand, ties to even). -/
def f32RoundNat (n : ℕ) : ℕ :=
  let s := sigShift n n
  let q := n / 2 ^ s
  let r := n % 2 ^ s
  if 2 * r < 2 ^ s then q * 2 ^ s
  else if 2 * r > 2 ^ s then (q + 1) * 2 ^ s
  else (if q % 2 = 0 then q else q + 1) * 2 ^ s

/-- Lexicographic order on RGB channel slices: the key order of the
`BTreeMap<&[u8], _>` used by `count_colors_as_lab`. -/
def rgbLt (x y : Rgb) : Bool :=
  decide (x.r < y.r) ||
    (decide (x.r = y.r) && (decide (x.g < y.g) || (decide (x.g = y.g) && decide (x.b < y.b))))

/-- One insertion into the `BTreeMap` histogram: counts of equal keys are
bumped, new keys are placed in ascending key order. -/
def btreeInsert : List (Rgb × ℕ) → Rgb → List (Rgb × ℕ)
  | [], c => [(c, 1)]
  | (k, v) :: rest, c =>
    if c = k then (k, v + 1) :: rest
    else if rgbLt c k then (c, 1) :: (k, v) :: rest
    else (k, v) :: btreeInsert rest c

/-- The `BTreeMap` fold of `count_colors_as_lab`: each distinct color of
the input, with its multiplicity, listed in ascending key order. -/
def colorCountMap (pixels : List Rgb) : List (Rgb × ℕ) :=
  pixels.foldl btreeInsert []

/-- The comparator of the two `sort_by(|(_, a), (_, b)| b.cmp(&a))` calls:
descending by count.  Rust's `sort_by` is a stable sort, and a stable sort
is uniquely determined by its comparator, so it is modelled by
`List.insertionSort` with this relation (which inserts an earlier element
before later elements of equal count, preserving their original order). -/
def countGE (p q : Lab × ℕ) : Prop := q.2 ≤ p.2

instance : DecidableRel countGE := fun p q => inferInstanceAs (Decidable (q.2 ≤ p.2))

instance : IsTotal (Lab × ℕ) countGE := ⟨fun p q => Nat.le_total q.2 p.2⟩

instance : IsTrans (Lab × ℕ) countGE := ⟨fun _ _ _ h h2 => le_trans h2 h⟩

/-- `count_colors_as_lab` from src/lib.rs: histogram the quantized colors,
convert each distinct color to Lab (the RGB→Lab transform of the lab
crate is the abstract parameter `toLab`), and sort descending by count. -/
def count_colors_as_lab (toLab : Rgb → Lab) (pixels : List Rgb) : List (Lab × ℕ) :=
  List.insertionSort countGE ((colorCountMap pixels).map (fun kv => (toLab kv.1, kv.2)))

/-- The inner loop of the scan pass of `remove_similar_colors`: index of
the first entry of `refined` whose color is within
`MIN_DISTANCE_FOR_UNIQUENESS` of `x` (the ΔE2000 distance of the delta_e
crate is the abstract parameter `d`). -/
def firstIdxSimilar (d : Lab → Lab → ℚ) (x : Lab) : List (Lab × ℕ) → Option ℕ
  | [] => none
  | y :: ys =>
    if d x y.1 < MIN_DISTANCE_FOR_UNIQUENESS then some 0
    else (firstIdxSimilar d x ys).map (· + 1)

/-- One step of the scan pass: state is `(similars, refined_palette)`.
An incoming entry within threshold of some accepted entry is recorded in
`similars` as `(index, color, count)`; otherwise it is appended to
`refined_palette`. -/
def scanStep (d : Lab → Lab → ℚ) (st : List (ℕ × Lab × ℕ) × List (Lab × ℕ)) (x : Lab × ℕ) :
    List (ℕ × Lab × ℕ) × List (Lab × ℕ) :=
  match firstIdxSimilar d x.1 st.2 with
  | some i => (st.1 ++ [(i, x.1, x.2)], st.2)
  | none => (st.1, st.2 ++ [x])

/-- The full scan pass (the first `for` loop of `remove_similar_colors`). -/
def scanSim (d : Lab → Lab → ℚ) (palette : List (Lab × ℕ)) :
    List (ℕ × Lab × ℕ) × List (Lab × ℕ) :=
  palette.foldl (scanStep d) ([], [])

/-- One step of the merge pass (the second `for` loop of
`remove_similar_colors`): fold a recorded similar entry into the accepted
entry at its index.  The weights of the centroid are the counts as f32
(`f32RoundNat`); the count update adds `count_y as f32 ... as usize`,
also `f32RoundNat`.  An out-of-range index would panic in Rust; it is
modelled as a no-op and proved unreachable. -/
def mergeInto (refined : List (Lab × ℕ)) (s : ℕ × Lab × ℕ) : List (Lab × ℕ) :=
  match refined[s.1]? with
  | none => refined
  | some (labX, cX) =>
    let cXf : ℚ := f32RoundNat cX
    let cYf : ℚ := f32RoundNat s.2.2
    let labY := s.2.1
    let balanced : Lab :=
      ⟨(labX.l * cXf + labY.l * cYf) / (cXf + cYf),
       (labX.a * cXf + labY.a * cYf) / (cXf + cYf),
       (labX.b * cXf + labY.b * cYf) / (cXf + cYf)⟩
    refined.set s.1 (balanced, cX + f32RoundNat s.2.2)

/-- `remove_similar_colors` from src/lib.rs: scan pass, then the deferred
merge pass over the recorded `similars`, then a stable descending sort by
count. -/
def remove_similar_colors (d : Lab → Lab → ℚ) (palette : List (Lab × ℕ)) : List (Lab × ℕ) :=
  let st := scanSim d palette
  List.insertionSort countGE (st.1.foldl mergeInto st.2)

/-- One step of the merge pass as the spec (and claim C2) words it: when
the incoming entry is within threshold of a first accepted entry, that
accepted entry is immediately replaced by the per-axis count-weighted
centroid and its count immediately increased, so later incoming entries
see the shifted position.  (Counts are exact here, as in the spec.) -/
def immediateStep (d : Lab → Lab → ℚ) (refined : List (Lab × ℕ)) (x : Lab × ℕ) :
    List (Lab × ℕ) :=
  match firstIdxSimilar d x.1 refined with
  | some i =>
    match refined[i]? with
    | none => refined
    | some (labY, cY) =>
      refined.set i
        (⟨(labY.l * cY + x.1.l * x.2) / ((cY : ℚ) + x.2),
          (labY.a * cY + x.1.a * x.2) / ((cY : ℚ) + x.2),
          (labY.b * cY + x.1.b * x.2) / ((cY : ℚ) + x.2)⟩,
         cY + x.2)
  | none => refined ++ [x]

/-- The merge pass with immediate merging, as the claim describes it. -/
def removeSimilarImmediate (d : Lab → Lab → ℚ) (palette : List (Lab × ℕ)) : List (Lab × ℕ) :=
  List.insertionSort countGE (palette.foldl (immediateStep d) [])

/-- The public result struct `Distil` of src/lib.rs: the ordered color
list and the index→count map (a `BTreeMap<usize, usize>` keyed by the
list position, modelled as the association list in key order). -/
structure Distil where
  colors : List Rgb
  color_count : List (ℕ × ℕ)
deriving DecidableEq, Repr

/-- The `color_count` map built by the loop of `distil_palette`:
`(i, count)` for each palette entry, `i` counting up from the given
start index. -/
def enumCounts : ℕ → List (Lab × ℕ) → List (ℕ × ℕ)
  | _, [] => []
  | i, e :: rest => (i, e.2) :: enumCounts (i + 1) rest

/-- `distil_palette` from src/lib.rs: convert each Lab entry back to RGB
(the Lab→RGB conversion of the lab crate is the abstract parameter
`toRgb`) in order, and map each index to that entry's count. -/
def distil_palette (toRgb : Lab → Rgb) (palette : List (Lab × ℕ)) : Distil :=
  { colors := palette.map (fun e => toRgb e.1)
    color_count := enumCounts 0 palette }

/-- `quantize` from src/lib.rs: feed the surviving channels to NeuQuant
and read back its color map chunked into RGB triples.  NeuQuant is an
external crate, modelled as the abstract parameter `nq`; its contract
fixes the color map at `NQ_PALETTE_SIZE` entries. -/
def quantize (nq : List ℕ → List Rgb) (img : List Rgba) : Except DistilError (List Rgb) :=
  (get_pixels img).map nq

/-- `Distil::new` from src/lib.rs, on the pixels of the (already scaled)
image: quantize, histogram as Lab, merge similars, export. -/
def distil_new (nq : List ℕ → List Rgb) (toLab : Rgb → Lab) (toRgb : Lab → Rgb)
    (d : Lab → Lab → ℚ) (img : List Rgba) : Except DistilError Distil :=
  (quantize nq img).map
    (fun q => distil_palette toRgb (remove_similar_colors d (count_colors_as_lab toLab q)))

/-- `Distil::from_path` from src/lib.rs: sniff the format, gate it, then
decode (external; its outcome is the parameter `decode`, a decoder error
being an opaque numeric code) and run the pipeline. -/
def from_path (probe : FileProbe) (decode : Except ℕ (List Rgba)) (path : String)
    (nq : List ℕ → List Rgb) (toLab : Rgb → Lab) (toRgb : Lab → Rgb)
    (d : Lab → Lab → ℚ) : Except DistilError Distil :=
  match get_image_format probe with
  | .error e => .error e
  | .ok format =>
    match is_supported_format format with
    | .error e => .error e
    | .ok _ =>
      match decode with
      | .ok img => distil_new nq toLab toRgb d img
      | .error err => .error (.ioErr path err)

/-- The sum of the counts of a Lab histogram / palette. -/
def sumCounts (l : List (Lab × ℕ)) : ℕ :=
  (l.map Prod.snd).sum

/-- The sum of the counts in the final result's `color_count` map. -/
def sumColorCount (r : Distil) : ℕ :=
  (r.color_count.map Prod.snd).sum

/-- The dimensions of a `DynamicImage`. -/
structure Dims where
  width : ℕ
  height : ℕ
deriving DecidableEq, Repr

/-- The new width computed by `scale_img`:
`(ratio * MAX_SAMPLE_COUNT as f32).sqrt() as u32`, i.e. the f32 square
root of `(w / h) * 1000` truncated toward zero.  With the f32 arithmetic
idealised as exact, this is the integer floor of the real square root of
`1000 * w / h`, which over ℕ is computed as
`Nat.sqrt (1000 * w * h) / h` (floor commutes with division by `h`). -/
def scaledWidth (w h : ℕ) : ℕ :=
  Nat.sqrt (MAX_SAMPLE_COUNT * w * h) / h

/-- The new width as the spec sentence behind claim C3 words it:
`round(sqrt(budget * aspect_ratio))`, rounding to nearest (half up).
The fractional part of the square root of `1000 * w / h` is at least one
half exactly when `(2 * n + 1) ^ 2 * h ≤ 4 * (1000 * w)` for `n` the
floor of the root. -/
def roundSqrtClaim (w h : ℕ) : ℕ :=
  let n := scaledWidth w h
  if (2 * n + 1) ^ 2 * h ≤ 4 * (MAX_SAMPLE_COUNT * w) then n + 1 else n

/-- The aspect-preserving fit of the image crate's
`resize(nwidth, nheight, filter)` (external collaborator):
the largest dimensions within the `nwidth × nheight` box that keep the
width:height ratio, the derived dimension rounded down and clamped to at
least 1. -/
def resizeDims (w h nw nh : ℕ) : ℕ × ℕ :=
  if nw * h ≤ nh * w then (nw, max (h * nw / w) 1) else (max (w * nh / h) 1, nh)

/-- `scale_img` from src/lib.rs, on dimensions: when `width * height`
(u32 arithmetic, hence the `% 2 ^ 32`) exceeds `MAX_SAMPLE_COUNT`,
resize to the box `(scaledWidth, height)`; otherwise pass through. -/
def scale_img (dims : Dims) : Dims :=
  if MAX_SAMPLE_COUNT < (dims.width * dims.height) % 2 ^ 32 then
    let nw := scaledWidth dims.width dims.height
    let p := resizeDims dims.width dims.height nw dims.height
    ⟨p.1, p.2⟩
  else dims

/-!  Concrete instantiations of the abstract collaborator parameters,
used to witness and to refute claims on explicit inputs. -/

/-- A neutral-gray Lab color. -/
def grayLab (l : ℚ) : Lab := ⟨l, 0, 0⟩

/-- Concrete distance instantiating the abstract ΔE2000 parameter:
lightness distance |ΔL|.  On neutral-gray pairs whose mean lightness is
50 (such as the pair of `pC4`) the true ΔE2000 is exactly `|ΔL|`. -/
def dL (x y : Lab) : ℚ := if x.l ≤ y.l then y.l - x.l else x.l - y.l

/-- Concrete RGB→Lab instantiation: embed the channels as axes. -/
def toLab0 (c : Rgb) : Lab := ⟨(c.r : ℚ), (c.g : ℚ), (c.b : ℚ)⟩

/-- Concrete Lab→RGB instantiation. -/
def toRgb0 (x : Lab) : Rgb := ⟨x.l.num.toNat, x.a.num.toNat, x.b.num.toNat⟩

/-- Concrete quantizer instantiation honouring the NeuQuant contract:
a constant color map of `NQ_PALETTE_SIZE` entries. -/
def nq0 (_ : List ℕ) : List Rgb := List.replicate NQ_PALETTE_SIZE ⟨100, 100, 100⟩

/-- A 2×2 fully-opaque image: two copies of (10,10,10), one
(200,200,200), and one near-black (5,5,5) that the filter drops. -/
def img0 : List Rgba :=
  [⟨10, 10, 10, 255⟩, ⟨10, 10, 10, 255⟩, ⟨200, 200, 200, 255⟩, ⟨5, 5, 5, 255⟩]

/-- Input refuting claim C2 (immediate-merge semantics): gray entries at
lightness 0, 9 and 10 with counts 100, 100, 50. -/
def pC2 : List (Lab × ℕ) := [(grayLab 0, 100), (grayLab 9, 100), (grayLab 10, 50)]

/-- Failing input of claim C4: two similar grays whose merged count,
16777217 = 2 ^ 24 + 1, is not f32-representable. -/
def pC4 : List (Lab × ℕ) := [(grayLab 51, 16777218), (grayLab 49, 16777217)]

/-- Witness input for claim C9: two far-apart grays, counts descending. -/
def pC9 : List (Lab × ℕ) := [(grayLab 0, 5), (grayLab 50, 3)]

/-- An all-black 1×1 image: nothing survives the filter. -/
def imgBlack : List Rgba := [⟨0, 0, 0, 255⟩]

/-!  Infrastructure for the merge pass (`remove_similar_colors`):
structure and weight of the scan pass, weight of the deferred merge
pass, and behaviour of the final sort. -/

/-- The total weight recorded in the similars list of the scan pass. -/
def simSum (s : List (ℕ × Lab × ℕ)) : ℕ :=
  (s.map (fun z => z.2.2)).sum

/-- The first-match invariant a recorded similar entry keeps with respect
to the accepted list: its index is in range, the entry there (at its
insertion-time color) is within threshold, and every earlier accepted
entry is not. -/
def SimInv (d : Lab → Lab → ℚ) (r : List (Lab × ℕ)) (s : ℕ × Lab × ℕ) : Prop :=
  s.1 < r.length
  ∧ (∀ y, r[s.1]? = some y → d s.2.1 y.1 < MIN_DISTANCE_FOR_UNIQUENESS)
  ∧ (∀ j y, j < s.1 → r[j]? = some y → ¬ d s.2.1 y.1 < MIN_DISTANCE_FOR_UNIQUENESS)

/-!  The histogram stage: its counts sum to the number of colors fed in,
and each single count is bounded by that sum. -/

/-- The total count stored in the `BTreeMap` histogram. -/
def sumPairs (l : List (Rgb × ℕ)) : ℕ :=
  (l.map Prod.snd).sum

/-!  The exporter: positional structure and descending order. -/

/-- Default entry used with `List.getD` on palettes. -/
def defaultEntry : Lab × ℕ := (⟨0, 0, 0⟩, 0)

/-- The merged palette handed to `distil_palette` on a successful run. -/
def finalPalette (nq : List ℕ → List Rgb) (toLab : Rgb → Lab) (d : Lab → Lab → ℚ)
    (img : List Rgba) : List (Lab × ℕ) :=
  match get_pixels img with
  | .ok chans => remove_similar_colors d (count_colors_as_lab toLab (nq chans))
  | .error _ => []

theorem sigShift_eq_zero {fuel n : ℕ} (h : n < 2 ^ 24) : sigShift fuel n = 0 := by
  cases fuel with
  | zero => rfl
  | succ f => rw [sigShift, if_pos h]

/-- The f32 round-trip is the identity below `2 ^ 24`. -/
theorem f32RoundNat_eq_self {n : ℕ} (h : n < 2 ^ 24) : f32RoundNat n = n := by
  rw [f32RoundNat]
  rw [sigShift_eq_zero h]
  simp [Nat.mod_one]

/-!  Helper lemmas about the sampler and the pipeline's error behaviour. -/

theorem get_pixels_foldl (img : List Rgba) :
    ∀ acc : List ℕ,
      img.foldl (fun acc px => if keepPixel px then acc ++ pixelChannels px else acc) acc =
        acc ++ ((img.filter keepPixel).map pixelChannels).flatten := by
  induction img with
  | nil => intro acc; simp
  | cons px rest ih =>
    intro acc
    by_cases h : keepPixel px
    · simp [List.foldl_cons, h, ih, List.append_assoc]
    · simp [List.foldl_cons, h, ih]

/-- The channel stream built by `get_pixels` is the concatenation of the
channels of the surviving pixels. -/
theorem get_pixels_eq (img : List Rgba) :
    get_pixels img =
      (if ((img.filter keepPixel).map pixelChannels).flatten.length = 0 then
        Except.error DistilError.uninteresting
      else Except.ok (((img.filter keepPixel).map pixelChannels).flatten)) := by
  rw [get_pixels, get_pixels_foldl img []]
  rfl

theorem flatten_channels_nil_iff (l : List Rgba) :
    (l.map pixelChannels).flatten = [] ↔ l = [] := by
  cases l with
  | nil => simp
  | cons x xs => simp [pixelChannels]

theorem distil_new_error {nq toLab toRgb d img e}
    (h : distil_new nq toLab toRgb d img = Except.error e) : e = DistilError.uninteresting := by
  rw [distil_new, quantize, get_pixels_eq] at h
  by_cases hz : ((img.filter keepPixel).map pixelChannels).flatten.length = 0
  · rw [if_pos hz] at h
    simpa [Except.map] using h.symm
  · rw [if_neg hz] at h
    simp [Except.map] at h

/-- C5: `get_pixels` fails with `Uninteresting` exactly when no pixel
survives the filter; it can fail no other way; when some pixel survives
it passes on the survivors' channels; and a failure aborts the whole
pipeline (both `Distil::new` and `Distil::from_path` on a supported
format return the error and no partial result). -/
theorem C5_uninteresting_iff (img : List Rgba) :
    (get_pixels img = Except.error DistilError.uninteresting ↔ survivorCount img = 0)
    ∧ (∀ e, get_pixels img = Except.error e → e = DistilError.uninteresting)
    ∧ (survivorCount img ≠ 0 →
        get_pixels img = Except.ok (((img.filter keepPixel).map pixelChannels).flatten))
    ∧ (∀ nq toLab toRgb d, survivorCount img = 0 →
        distil_new nq toLab toRgb d img = Except.error DistilError.uninteresting)
    ∧ (∀ fmt dec path nq toLab toRgb d, (fmt = ImageFormat.png ∨ fmt = ImageFormat.jpeg) →
        dec = Except.ok img → survivorCount img = 0 →
        from_path (FileProbe.sniffed fmt) dec path nq toLab toRgb d =
          Except.error DistilError.uninteresting) := by
  have hcount : survivorCount img = 0 ↔
      ((img.filter keepPixel).map pixelChannels).flatten.length = 0 := by
    rw [survivorCount, List.length_eq_zero, List.length_eq_zero, flatten_channels_nil_iff]
  have hnew : ∀ nq toLab toRgb d, survivorCount img = 0 →
      distil_new nq toLab toRgb d img = Except.error DistilError.uninteresting := by
    intro nq toLab toRgb d h
    rw [distil_new, quantize, get_pixels_eq, if_pos (hcount.mp h)]
    rfl
  refine ⟨?_, ?_, ?_, hnew, ?_⟩
  · rw [get_pixels_eq, hcount]
    by_cases hz : ((img.filter keepPixel).map pixelChannels).flatten.length = 0
    · simp [hz]
    · simp [hz]
  · intro e he
    rw [get_pixels_eq] at he
    by_cases hz : ((img.filter keepPixel).map pixelChannels).flatten.length = 0
    · rw [if_pos hz] at he
      exact (Except.error.inj he).symm
    · rw [if_neg hz] at he
      exact absurd he (by simp)
  · intro h
    rw [get_pixels_eq, if_neg (fun hz => h (hcount.mpr hz))]
  · intro fmt dec path nq toLab toRgb d hfmt hdec h
    have hsupp : is_supported_format fmt = Except.ok () := by
      rcases hfmt with h1 | h1 <;> rw [h1] <;> rfl
    rw [from_path.eq_def]
    simp only [get_image_format, hsupp, hdec]
    exact hnew nq toLab toRgb d h

/-- Witness for C5: the all-black image has no survivors and the whole
pipeline aborts with `Uninteresting`. -/
theorem C5_uninteresting_iff_witness :
    survivorCount imgBlack = 0 ∧
      distil_new nq0 toLab0 toRgb0 dL imgBlack = Except.error DistilError.uninteresting :=
  ⟨by decide, (C5_uninteresting_iff imgBlack).2.2.2.1 nq0 toLab0 toRgb0 dL (by decide)⟩

/-- C6: a pixel of the (scaled) image is dropped by the filter exactly
when its alpha channel is not 255, or all three color channels are
strictly below `min_black = 8`, or all three are strictly above
`max_white = 247`. -/
theorem C6_filter_rule (px : Rgba) :
    MIN_BLACK = 8 ∧ MAX_WHITE = 247 ∧
      (keepPixel px = false ↔
        (px.a ≠ 255 ∨ (px.r < MIN_BLACK ∧ px.g < MIN_BLACK ∧ px.b < MIN_BLACK)
          ∨ (px.r > MAX_WHITE ∧ px.g > MAX_WHITE ∧ px.b > MAX_WHITE))) := by
  refine ⟨rfl, rfl, ?_⟩
  simp only [keepPixel, Bool.not_eq_false', Bool.or_eq_true, has_transparency, is_black, is_white,
    bne_iff_ne, decide_eq_true_eq, Bool.and_eq_true]
  tauto

/-- C7: only PNG and JPEG pass the format gate; any other sniffed format
makes `from_path` return `UnsupportedFormat` whatever the decoder would
produce (so before any pixel data is touched); and on PNG or JPEG no
`UnsupportedFormat` error is ever produced. -/
theorem C7_format_gate :
    (∀ f, is_supported_format f = Except.ok () ↔ (f = ImageFormat.png ∨ f = ImageFormat.jpeg))
    ∧ (∀ f dec path nq toLab toRgb d, ¬(f = ImageFormat.png ∨ f = ImageFormat.jpeg) →
        from_path (FileProbe.sniffed f) dec path nq toLab toRgb d =
          Except.error DistilError.unsupportedFormat)
    ∧ (∀ f dec path nq toLab toRgb d, (f = ImageFormat.png ∨ f = ImageFormat.jpeg) →
        from_path (FileProbe.sniffed f) dec path nq toLab toRgb d ≠
          Except.error DistilError.unsupportedFormat) := by
  have hgate : ∀ f, is_supported_format f = Except.ok () ↔
      (f = ImageFormat.png ∨ f = ImageFormat.jpeg) := by
    intro f
    cases f <;> simp [is_supported_format]
  refine ⟨hgate, ?_, ?_⟩
  · intro f dec path nq toLab toRgb d hf
    have : is_supported_format f = Except.error DistilError.unsupportedFormat := by
      cases f <;> first
        | rfl
        | exact absurd (by simp) hf
    rw [from_path.eq_def]
    simp only [get_image_format, this]
  · intro f dec path nq toLab toRgb d hf h
    rw [from_path.eq_def] at h
    simp only [get_image_format, (hgate f).mpr hf] at h
    match dec with
    | Except.error e => exact absurd (Except.error.inj h) (by simp)
    | Except.ok img =>
      exact absurd (distil_new_error h) (by simp)

/-- Witness for C7: a GIF probe is rejected at the gate, a PNG probe is
not. -/
theorem C7_format_gate_witness :
    from_path (FileProbe.sniffed ImageFormat.gif) (Except.ok img0) "img.gif" nq0 toLab0 toRgb0 dL =
        Except.error DistilError.unsupportedFormat ∧
      from_path (FileProbe.sniffed ImageFormat.png) (Except.ok img0) "img.png" nq0 toLab0 toRgb0 dL ≠
        Except.error DistilError.unsupportedFormat :=
  ⟨C7_format_gate.2.1 ImageFormat.gif (Except.ok img0) "img.gif" nq0 toLab0 toRgb0 dL (by simp),
   C7_format_gate.2.2 ImageFormat.png (Except.ok img0) "img.png" nq0 toLab0 toRgb0 dL (Or.inl rfl)⟩

/-- C10: an unopenable file or an unrecognized format yields
`UnsupportedFormat`, not an I/O-class error; the `Io` variant is produced
exactly when a file sniffed as PNG or JPEG fails to decode. -/
theorem C10_io_classification :
    (∀ dec path nq toLab toRgb d,
        from_path FileProbe.noFile dec path nq toLab toRgb d =
          Except.error DistilError.unsupportedFormat)
    ∧ (∀ dec path nq toLab toRgb d,
        from_path FileProbe.unrecognized dec path nq toLab toRgb d =
          Except.error DistilError.unsupportedFormat)
    ∧ (∀ probe dec path nq toLab toRgb d p e,
        from_path probe dec path nq toLab toRgb d = Except.error (DistilError.ioErr p e) →
          (probe = FileProbe.sniffed ImageFormat.png ∨ probe = FileProbe.sniffed ImageFormat.jpeg)
            ∧ dec = Except.error e ∧ p = path) := by
  refine ⟨fun dec path nq toLab toRgb d => rfl, fun dec path nq toLab toRgb d => rfl, ?_⟩
  intro probe dec path nq toLab toRgb d p e h
  match probe with
  | FileProbe.noFile => exact absurd (Except.error.inj h) (by simp)
  | FileProbe.unrecognized => exact absurd (Except.error.inj h) (by simp)
  | FileProbe.sniffed f =>
    rw [from_path.eq_def] at h
    simp only [get_image_format] at h
    match hf : is_supported_format f with
    | Except.error e2 =>
      simp only [hf] at h
      have he2 : e2 = DistilError.unsupportedFormat := by
        cases f <;> simp_all [is_supported_format]
      rw [he2] at h
      exact absurd (Except.error.inj h) (by simp)
    | Except.ok u =>
      simp only [hf] at h
      have hfmt : f = ImageFormat.png ∨ f = ImageFormat.jpeg := by
        cases f <;> simp_all [is_supported_format]
      match dec with
      | Except.ok img => exact absurd (distil_new_error h) (by simp)
      | Except.error e3 =>
        have hinj := Except.error.inj h
        injection hinj with h2 h3
        refine ⟨?_, by rw [h3], h2.symm⟩
        rcases hfmt with h1 | h1 <;> [left; right] <;> rw [h1]

theorem sumCounts_append (l1 l2 : List (Lab × ℕ)) :
    sumCounts (l1 ++ l2) = sumCounts l1 + sumCounts l2 := by
  simp [sumCounts]

theorem scan_counts (d : Lab → Lab → ℚ) (p : List (Lab × ℕ)) :
    ∀ st : List (ℕ × Lab × ℕ) × List (Lab × ℕ),
      simSum (p.foldl (scanStep d) st).1 + sumCounts (p.foldl (scanStep d) st).2 =
        simSum st.1 + sumCounts st.2 + sumCounts p := by
  induction p with
  | nil => intro st; simp [sumCounts]
  | cons x rest ih =>
    intro st
    rw [List.foldl_cons, ih]
    have hx : sumCounts (x :: rest) = x.2 + sumCounts rest := by simp [sumCounts]
    cases h : firstIdxSimilar d x.1 st.2 with
    | some i =>
      have : scanStep d st x = (st.1 ++ [(i, x.1, x.2)], st.2) := by
        rw [scanStep, h]
      rw [this, hx]
      simp [simSum]
      omega
    | none =>
      have : scanStep d st x = (st.1, st.2 ++ [x]) := by
        rw [scanStep, h]
      rw [this, hx, sumCounts_append]
      simp [sumCounts]
      omega

/-- During the scan pass the accepted list only grows by appending, and
what it gains is a subsequence of the input, with colors and counts
untouched. -/
theorem scan_refined (d : Lab → Lab → ℚ) (p : List (Lab × ℕ)) :
    ∀ s0 r0, ∃ t, (p.foldl (scanStep d) (s0, r0)).2 = r0 ++ t ∧ t.Sublist p := by
  induction p with
  | nil => exact fun s0 r0 => ⟨[], by simp⟩
  | cons x rest ih =>
    intro s0 r0
    rw [List.foldl_cons]
    cases h : firstIdxSimilar d x.1 r0 with
    | some i =>
      have hstep : scanStep d (s0, r0) x = (s0 ++ [(i, x.1, x.2)], r0) := by
        rw [scanStep, h]
      rw [hstep]
      obtain ⟨t, ht, hsub⟩ := ih (s0 ++ [(i, x.1, x.2)]) r0
      exact ⟨t, ht, hsub.cons x⟩
    | none =>
      have hstep : scanStep d (s0, r0) x = (s0, r0 ++ [x]) := by
        rw [scanStep, h]
      rw [hstep]
      obtain ⟨t, ht, hsub⟩ := ih s0 (r0 ++ [x])
      exact ⟨x :: t, by rw [ht, List.append_assoc]; rfl, hsub.cons₂ x⟩

/-- Every entry of the similars list either was there initially or
records the color and count of some input entry. -/
theorem scan_sims_subset (d : Lab → Lab → ℚ) (p : List (Lab × ℕ)) :
    ∀ s0 r0 s, s ∈ (p.foldl (scanStep d) (s0, r0)).1 → s ∈ s0 ∨ (s.2.1, s.2.2) ∈ p := by
  induction p with
  | nil => intro s0 r0 s hs; exact Or.inl hs
  | cons x rest ih =>
    intro s0 r0 s hs
    rw [List.foldl_cons] at hs
    cases h : firstIdxSimilar d x.1 r0 with
    | some i =>
      rw [scanStep, h] at hs
      rcases ih _ _ s hs with hmem | hmem
      · rcases List.mem_append.mp hmem with hmem | hmem
        · exact Or.inl hmem
        · right
          have : s = (i, x.1, x.2) := by simpa using hmem
          rw [this]
          exact List.mem_cons_self x rest
      · exact Or.inr (List.mem_cons_of_mem x hmem)
    | none =>
      rw [scanStep, h] at hs
      rcases ih _ _ s hs with hmem | hmem
      · exact Or.inl hmem
      · exact Or.inr (List.mem_cons_of_mem x hmem)

/-- What `firstIdxSimilar` finds really is the first accepted entry
within threshold. -/
theorem firstIdxSimilar_spec (d : Lab → Lab → ℚ) (x : Lab) :
    ∀ (l : List (Lab × ℕ)) i, firstIdxSimilar d x l = some i →
      i < l.length
      ∧ (∀ y, l[i]? = some y → d x y.1 < MIN_DISTANCE_FOR_UNIQUENESS)
      ∧ (∀ j y, j < i → l[j]? = some y → ¬ d x y.1 < MIN_DISTANCE_FOR_UNIQUENESS) := by
  intro l
  induction l with
  | nil => intro i h; exact absurd h (by simp [firstIdxSimilar])
  | cons y ys ih =>
    intro i h
    rw [firstIdxSimilar] at h
    by_cases hd : d x y.1 < MIN_DISTANCE_FOR_UNIQUENESS
    · rw [if_pos hd] at h
      have hi : i = 0 := (Option.some.inj h).symm
      subst hi
      refine ⟨Nat.succ_pos _, ?_, ?_⟩
      · intro z hz
        have hzy : y = z := by simpa using hz
        rw [hzy.symm]
        exact hd
      · intro j z hj _
        exact absurd hj (Nat.not_lt_zero j)
    · rw [if_neg hd] at h
      match hfi : firstIdxSimilar d x ys with
      | none => rw [hfi] at h; exact absurd h (by simp)
      | some i0 =>
        rw [hfi] at h
        have hi : i = i0 + 1 := (Option.some.inj h).symm
        subst hi
        obtain ⟨hlt, hhit, hbefore⟩ := ih i0 hfi
        refine ⟨by simpa using hlt, ?_, ?_⟩
        · intro z hz
          exact hhit z (by simpa using hz)
        · intro j z hj hjz
          match j with
          | 0 =>
            have hzy : y = z := by simpa using hjz
            rw [hzy.symm]
            exact hd
          | j0 + 1 =>
            exact hbefore j0 z (Nat.lt_of_succ_lt_succ hj) (by simpa using hjz)

theorem SimInv_append {d r s} (t : List (Lab × ℕ)) (h : SimInv d r s) : SimInv d (r ++ t) s := by
  obtain ⟨hlt, hhit, hbefore⟩ := h
  refine ⟨by simpa using Nat.lt_of_lt_of_le hlt (Nat.le_add_right _ _), ?_, ?_⟩
  · intro y hy
    rw [List.getElem?_append_left hlt] at hy
    exact hhit y hy
  · intro j y hj hy
    rw [List.getElem?_append_left (Nat.lt_trans hj hlt)] at hy
    exact hbefore j y hj hy

/-- Every similar entry recorded by the scan pass satisfies the
first-match invariant against the final accepted list. -/
theorem scan_sims_inv (d : Lab → Lab → ℚ) (p : List (Lab × ℕ)) :
    ∀ st, (∀ s ∈ st.1, SimInv d st.2 s) →
      ∀ s ∈ (p.foldl (scanStep d) st).1, SimInv d (p.foldl (scanStep d) st).2 s := by
  induction p with
  | nil => intro st h; exact h
  | cons x rest ih =>
    intro st hst
    rw [List.foldl_cons]
    apply ih
    cases h : firstIdxSimilar d x.1 st.2 with
    | some i =>
      have hstep : scanStep d st x = (st.1 ++ [(i, x.1, x.2)], st.2) := by
        rw [scanStep, h]
      rw [hstep]
      intro s hs
      rcases List.mem_append.mp hs with hmem | hmem
      · exact hst s hmem
      · have : s = (i, x.1, x.2) := by simpa using hmem
        rw [this]
        obtain ⟨hlt, hhit, hbefore⟩ := firstIdxSimilar_spec d x.1 st.2 i h
        exact ⟨hlt, hhit, hbefore⟩
    | none =>
      have hstep : scanStep d st x = (st.1, st.2 ++ [x]) := by
        rw [scanStep, h]
      rw [hstep]
      intro s hs
      exact SimInv_append [x] (hst s hs)

theorem mergeInto_length (r : List (Lab × ℕ)) (s : ℕ × Lab × ℕ) :
    (mergeInto r s).length = r.length := by
  rw [mergeInto]
  cases h : r[s.1]? with
  | none => rfl
  | some e =>
    cases e
    simp

theorem sumCounts_set (l : List (Lab × ℕ)) :
    ∀ i x y, l[i]? = some x → sumCounts (l.set i y) + x.2 = sumCounts l + y.2 := by
  induction l with
  | nil => intro i x y h; exact absurd h (by simp)
  | cons a rest ih =>
    intro i x y h
    match i with
    | 0 =>
      have hax : a = x := by simpa using h
      rw [hax.symm]
      simp [sumCounts]
      omega
    | i0 + 1 =>
      have hrest := ih i0 x y (by simpa using h)
      simp [sumCounts] at hrest ⊢
      omega

theorem sumCounts_set_pair (l : List (Lab × ℕ)) (i : ℕ) (labX bal : Lab) (cX n : ℕ)
    (h : l[i]? = some (labX, cX)) :
    sumCounts (l.set i (bal, cX + n)) = sumCounts l + n := by
  have := sumCounts_set l i (labX, cX) (bal, cX + n) h
  omega

theorem mergeInto_sum (r : List (Lab × ℕ)) (s : ℕ × Lab × ℕ) (h : s.1 < r.length) :
    sumCounts (mergeInto r s) = sumCounts r + f32RoundNat s.2.2 := by
  cases hr : r[s.1]? with
  | none =>
    exact absurd hr (by simp [List.getElem?_eq_none_iff]; omega)
  | some e =>
    obtain ⟨labX, cX⟩ := e
    simp only [mergeInto, hr]
    exact sumCounts_set_pair r s.1 labX _ cX (f32RoundNat s.2.2) hr

theorem mergeFold_length (sims : List (ℕ × Lab × ℕ)) :
    ∀ r : List (Lab × ℕ), (sims.foldl mergeInto r).length = r.length := by
  induction sims with
  | nil => intro r; rfl
  | cons s rest ih =>
    intro r
    rw [List.foldl_cons, ih, mergeInto_length]

/-- The deferred merge pass adds exactly the (f32-rounded) weight of each
recorded similar entry. -/
theorem mergeFold_sum (sims : List (ℕ × Lab × ℕ)) :
    ∀ r : List (Lab × ℕ), (∀ s ∈ sims, s.1 < r.length) →
      sumCounts (sims.foldl mergeInto r) =
        sumCounts r + (sims.map (fun s => f32RoundNat s.2.2)).sum := by
  induction sims with
  | nil => intro r _; simp
  | cons s rest ih =>
    intro r hr
    rw [List.foldl_cons]
    have hlen : ∀ z ∈ rest, z.1 < (mergeInto r s).length := by
      intro z hz
      rw [mergeInto_length]
      exact hr z (List.mem_cons_of_mem s hz)
    rw [ih (mergeInto r s) hlen, mergeInto_sum r s (hr s (List.mem_cons_self s rest))]
    simp
    omega

theorem sumCounts_insertionSort (l : List (Lab × ℕ)) :
    sumCounts (List.insertionSort countGE l) = sumCounts l := by
  exact List.Perm.sum_eq ((List.perm_insertionSort countGE l).map Prod.snd)

/-- Conservation of weight through the merge stage, provided every input
count survives the f32 round-trip (in particular whenever every count is
below `2 ^ 24`). -/
theorem remove_similar_colors_sum (d : Lab → Lab → ℚ) (p : List (Lab × ℕ))
    (hp : ∀ x ∈ p, x.2 < 2 ^ 24) :
    sumCounts (remove_similar_colors d p) = sumCounts p := by
  have hscan := scan_counts d p ([], [])
  have hinv := scan_sims_inv d p ([], []) (by simp)
  have hidx : ∀ s ∈ (scanSim d p).1, s.1 < (scanSim d p).2.length :=
    fun s hs => (hinv s hs).1
  rw [remove_similar_colors, sumCounts_insertionSort, mergeFold_sum _ _ hidx]
  have hround : ((scanSim d p).1.map (fun s => f32RoundNat s.2.2)).sum =
      simSum (scanSim d p).1 := by
    rw [simSum]
    congr 1
    apply List.map_congr_left
    intro s hs
    rcases scan_sims_subset d p [] [] s hs with hmem | hmem
    · exact absurd hmem (by simp)
    · exact f32RoundNat_eq_self (hp _ hmem)
  rw [hround]
  rw [scanSim] at *
  simp [sumCounts, simSum] at hscan ⊢
  omega

/-- C4: the merge stage does NOT conserve total weight on every input
list: on the failing input `pC4` — two grays at ΔE2000 distance 2, the
incoming entry carrying count 16777217 = 2 ^ 24 + 1, which the
`count as f32 ... as usize` round-trip of the merge pass truncates to
16777216 — the input counts sum to 33554435 but the output counts sum to
33554434. -/
theorem C4_weight_not_conserved :
    sumCounts pC4 = 33554435 ∧ sumCounts (remove_similar_colors dL pC4) = 33554434 := by
  have hfis : firstIdxSimilar dL (grayLab 49) [(grayLab 51, 16777218)] = some 0 := by
    rw [firstIdxSimilar, if_pos]
    norm_num [dL, grayLab, MIN_DISTANCE_FOR_UNIQUENESS]
  have hscan : scanSim dL pC4 = ([(0, grayLab 49, 16777217)], [(grayLab 51, 16777218)]) := by
    have h0 : firstIdxSimilar dL (grayLab 51) ([] : List (Lab × ℕ)) = none := rfl
    simp only [scanSim, pC4, List.foldl_cons, List.foldl_nil, scanStep, h0, hfis,
      List.nil_append]
  refine ⟨rfl, ?_⟩
  rw [remove_similar_colors, hscan, sumCounts_insertionSort, List.foldl_cons, List.foldl_nil,
    mergeInto_sum _ _ (by norm_num)]
  have hround : f32RoundNat 16777217 = 16777216 := by decide
  rw [hround]
  rfl

theorem firstIdxSimilar_none (d : Lab → Lab → ℚ) (x : Lab) :
    ∀ l : List (Lab × ℕ), (∀ y ∈ l, ¬ d x y.1 < MIN_DISTANCE_FOR_UNIQUENESS) →
      firstIdxSimilar d x l = none := by
  intro l
  induction l with
  | nil => intro _; rfl
  | cons y ys ih =>
    intro h
    rw [firstIdxSimilar, if_neg (h y (List.mem_cons_self y ys)),
      ih (fun z hz => h z (List.mem_cons_of_mem y hz))]
    rfl

/-- When every incoming entry is far from everything accepted so far and
from every other incoming entry, the scan pass accepts everything, in
order, and records no similars. -/
theorem scan_no_merge (d : Lab → Lab → ℚ) :
    ∀ (p : List (Lab × ℕ)) st,
      (∀ x ∈ p, ∀ y ∈ st.2, ¬ d x.1 y.1 < MIN_DISTANCE_FOR_UNIQUENESS) →
      p.Pairwise (fun a b => ¬ d b.1 a.1 < MIN_DISTANCE_FOR_UNIQUENESS) →
      p.foldl (scanStep d) st = (st.1, st.2 ++ p) := by
  intro p
  induction p with
  | nil => intro st _ _; simp
  | cons x rest ih =>
    intro st hfar hpair
    rw [List.foldl_cons]
    have hnone : firstIdxSimilar d x.1 st.2 = none :=
      firstIdxSimilar_none d x.1 st.2 (hfar x (List.mem_cons_self x rest))
    have hstep : scanStep d st x = (st.1, st.2 ++ [x]) := by
      rw [scanStep, hnone]
    rw [hstep]
    rw [List.pairwise_cons] at hpair
    have hrest := ih (st.1, st.2 ++ [x]) ?_ hpair.2
    · rw [hrest]
      simp
    · intro z hz y hy
      rcases List.mem_append.mp hy with hmem | hmem
      · exact hfar z (List.mem_cons_of_mem x hz) y hmem
      · have hyx : y = x := by simpa using hmem
        rw [hyx]
        exact hpair.1 z hz

/-- C9: on an input sorted descending by count whose entries are all
pairwise at least the merge threshold apart, `remove_similar_colors`
returns its input unchanged — same cardinality, colors and counts. -/
theorem C9_merge_idempotence (d : Lab → Lab → ℚ) (p : List (Lab × ℕ))
    (hfar : p.Pairwise (fun a b =>
      MIN_DISTANCE_FOR_UNIQUENESS ≤ d a.1 b.1 ∧ MIN_DISTANCE_FOR_UNIQUENESS ≤ d b.1 a.1))
    (hsorted : List.Sorted countGE p) :
    remove_similar_colors d p = p := by
  have hpair : p.Pairwise (fun a b => ¬ d b.1 a.1 < MIN_DISTANCE_FOR_UNIQUENESS) :=
    hfar.imp (fun h => not_lt.mpr h.2)
  have hscan : scanSim d p = ([], p) := by
    rw [scanSim, scan_no_merge d p ([], []) (by simp) hpair]
    rfl
  rw [remove_similar_colors, hscan]
  exact hsorted.insertionSort_eq

/-- Witness for C9: two far-apart grays with descending counts pass
through the merge stage unchanged. -/
theorem C9_merge_idempotence_witness :
    (pC9.Pairwise fun a b =>
        MIN_DISTANCE_FOR_UNIQUENESS ≤ dL a.1 b.1 ∧ MIN_DISTANCE_FOR_UNIQUENESS ≤ dL b.1 a.1)
      ∧ List.Sorted countGE pC9 ∧ remove_similar_colors dL pC9 = pC9 := by
  have hfar : pC9.Pairwise fun a b =>
      MIN_DISTANCE_FOR_UNIQUENESS ≤ dL a.1 b.1 ∧ MIN_DISTANCE_FOR_UNIQUENESS ≤ dL b.1 a.1 := by
    norm_num [pC9, List.pairwise_cons, dL, grayLab, MIN_DISTANCE_FOR_UNIQUENESS]
  have hsorted : List.Sorted countGE pC9 := by
    norm_num [pC9, List.Sorted, List.pairwise_cons, countGE]
  exact ⟨hfar, hsorted, C9_merge_idempotence dL pC9 hfar hsorted⟩

theorem fis_g9_g0 : firstIdxSimilar dL (grayLab 9) [(grayLab 0, 100)] = some 0 := by
  rw [firstIdxSimilar, if_pos]
  norm_num [dL, grayLab, MIN_DISTANCE_FOR_UNIQUENESS]

/-- Evaluation of the scan pass on `pC2`: the lightness-9 entry is
similar to accepted index 0; the lightness-10 entry (at ΔL exactly 10
from the insertion-time position of index 0) is accepted. -/
theorem scanSim_pC2_eval :
    scanSim dL pC2 = ([(0, grayLab 9, 100)], [(grayLab 0, 100), (grayLab 10, 50)]) := by
  have h3 : firstIdxSimilar dL (grayLab 10) [(grayLab 0, 100)] = none := by
    rw [firstIdxSimilar, if_neg]
    · rfl
    · norm_num [dL, grayLab, MIN_DISTANCE_FOR_UNIQUENESS]
  have h1 : firstIdxSimilar dL (grayLab 0) ([] : List (Lab × ℕ)) = none := rfl
  simp only [scanSim, pC2, List.foldl_cons, List.foldl_nil, scanStep, h1, fis_g9_g0, h3,
    List.nil_append, List.singleton_append]

/-- Evaluation of the immediate-merge variant on `pC2`: after merging the
lightness-9 entry, the representative sits at lightness 9/2, so the
lightness-10 entry is within threshold and merges too, leaving a single
entry at lightness 28/5 with count 250. -/
theorem immediate_pC2_eval :
    removeSimilarImmediate dL pC2 = [(⟨28 / 5, 0, 0⟩, 250)] := by
  have e1 : immediateStep dL [] (grayLab 0, 100) = [(grayLab 0, 100)] := rfl
  have e2 : immediateStep dL [(grayLab 0, 100)] (grayLab 9, 100) = [(⟨9 / 2, 0, 0⟩, 200)] := by
    rw [immediateStep, fis_g9_g0]
    simp only [List.getElem?_cons_zero, List.set_cons_zero, grayLab]
    norm_num
  have e3 : immediateStep dL [(⟨9 / 2, 0, 0⟩, 200)] (grayLab 10, 50) =
      [(⟨28 / 5, 0, 0⟩, 250)] := by
    have hf : firstIdxSimilar dL (grayLab 10) [(⟨9 / 2, 0, 0⟩, 200)] = some 0 := by
      rw [firstIdxSimilar, if_pos]
      norm_num [dL, grayLab, MIN_DISTANCE_FOR_UNIQUENESS]
    rw [immediateStep, hf]
    simp only [List.getElem?_cons_zero, List.set_cons_zero, grayLab]
    norm_num
  rw [removeSimilarImmediate, pC2, List.foldl_cons, List.foldl_cons, List.foldl_cons,
    List.foldl_nil, e1, e2, e3]
  rfl

/-- Counterexample to C2: the code's merge pass is not the immediate
merge the claim describes.  On `pC2` the code compares the third entry
(lightness 10) against the FIRST accepted entry's insertion-time
position (lightness 0, distance 10, not similar) and keeps it separate,
producing two palette entries; immediate merging would have shifted the
first representative to lightness 9/2 before the comparison (distance
11/2, similar), producing one. -/
theorem C2_immediate_merge_refuted :
    remove_similar_colors dL pC2 ≠ removeSimilarImmediate dL pC2
      ∧ (remove_similar_colors dL pC2).length = 2
      ∧ (removeSimilarImmediate dL pC2).length = 1 := by
  have hlen1 : (remove_similar_colors dL pC2).length = 2 := by
    rw [remove_similar_colors, scanSim_pC2_eval, List.length_insertionSort, mergeFold_length]
    rfl
  have hlen2 : (removeSimilarImmediate dL pC2).length = 1 := by
    rw [immediate_pC2_eval]
    rfl
  refine ⟨?_, hlen1, hlen2⟩
  intro h
  rw [h, hlen2] at hlen1
  exact absurd hlen1 (by norm_num)

/-- C2 (amended): scanning stops at the first accepted entry within the
threshold, but the merge is NOT applied immediately: the match is
recorded and all centroid/count updates happen in a second pass after
scanning completes, so every incoming entry is compared against each
accepted representative's insertion-time position (the accepted list
holds unmodified input entries for the whole scan). -/
theorem C2_first_match_deferred (d : Lab → Lab → ℚ) (p : List (Lab × ℕ))
    (s : ℕ × Lab × ℕ) (hs : s ∈ (scanSim d p).1) :
    ((scanSim d p).2).Sublist p
      ∧ remove_similar_colors d p =
          List.insertionSort countGE (((scanSim d p).1).foldl mergeInto ((scanSim d p).2))
      ∧ s.1 < ((scanSim d p).2).length
      ∧ (∀ y, ((scanSim d p).2)[s.1]? = some y → d s.2.1 y.1 < MIN_DISTANCE_FOR_UNIQUENESS)
      ∧ (∀ j y, j < s.1 → ((scanSim d p).2)[j]? = some y →
          ¬ d s.2.1 y.1 < MIN_DISTANCE_FOR_UNIQUENESS) := by
  have hinv := scan_sims_inv d p ([], []) (by simp) s hs
  obtain ⟨hlt, hhit, hbefore⟩ := hinv
  refine ⟨?_, rfl, hlt, hhit, hbefore⟩
  obtain ⟨t, ht, hsub⟩ := scan_refined d p [] []
  rw [scanSim, ht]
  simpa using hsub

/-- Witness for C2 (amended): on `pC2` the single recorded similar entry
is the lightness-9 input, matched to accepted index 0 at its
insertion-time position. -/
theorem C2_first_match_deferred_witness :
    (0, grayLab 9, 100) ∈ (scanSim dL pC2).1
      ∧ (((scanSim dL pC2).2).Sublist pC2
        ∧ remove_similar_colors dL pC2 =
            List.insertionSort countGE (((scanSim dL pC2).1).foldl mergeInto ((scanSim dL pC2).2))
        ∧ (0, grayLab 9, (100 : ℕ)).1 < ((scanSim dL pC2).2).length
        ∧ (∀ y, ((scanSim dL pC2).2)[(0, grayLab 9, (100 : ℕ)).1]? = some y →
            dL (0, grayLab 9, (100 : ℕ)).2.1 y.1 < MIN_DISTANCE_FOR_UNIQUENESS)
        ∧ (∀ j y, j < (0, grayLab 9, (100 : ℕ)).1 → ((scanSim dL pC2).2)[j]? = some y →
            ¬ dL (0, grayLab 9, (100 : ℕ)).2.1 y.1 < MIN_DISTANCE_FOR_UNIQUENESS)) := by
  have hmem : (0, grayLab 9, 100) ∈ (scanSim dL pC2).1 := by
    rw [scanSim_pC2_eval]
    exact List.mem_singleton.mpr rfl
  exact ⟨hmem, C2_first_match_deferred dL pC2 (0, grayLab 9, 100) hmem⟩

theorem btreeInsert_sum (m : List (Rgb × ℕ)) : ∀ c, sumPairs (btreeInsert m c) = sumPairs m + 1 := by
  induction m with
  | nil => intro c; rfl
  | cons kv rest ih =>
    intro c
    obtain ⟨k, v⟩ := kv
    rw [btreeInsert]
    by_cases h1 : c = k
    · rw [if_pos h1]
      simp [sumPairs]
      omega
    · rw [if_neg h1]
      by_cases h2 : rgbLt c k = true
      · rw [if_pos h2]
        simp [sumPairs]
        omega
      · rw [if_neg h2]
        have := ih c
        simp [sumPairs] at this ⊢
        omega

theorem colorCountMap_sum (pixels : List Rgb) : sumPairs (colorCountMap pixels) = pixels.length := by
  have key : ∀ (l : List Rgb) (acc : List (Rgb × ℕ)),
      sumPairs (l.foldl btreeInsert acc) = sumPairs acc + l.length := by
    intro l
    induction l with
    | nil => intro acc; simp
    | cons c rest ih =>
      intro acc
      rw [List.foldl_cons, ih, btreeInsert_sum]
      simp
      omega
  rw [colorCountMap, key]
  simp [sumPairs]

/-- The counts of the histogram built by `count_colors_as_lab` sum to the
length of the quantized color list it was fed. -/
theorem count_colors_as_lab_sum (toLab : Rgb → Lab) (pixels : List Rgb) :
    sumCounts (count_colors_as_lab toLab pixels) = pixels.length := by
  rw [count_colors_as_lab, sumCounts_insertionSort, sumCounts, List.map_map]
  have : ((colorCountMap pixels).map (Prod.snd ∘ fun kv => (toLab kv.1, kv.2))) =
      (colorCountMap pixels).map Prod.snd :=
    List.map_congr_left (fun kv _ => rfl)
  rw [this]
  exact colorCountMap_sum pixels

theorem count_le_sumCounts {l : List (Lab × ℕ)} {x : Lab × ℕ} (hx : x ∈ l) :
    x.2 ≤ sumCounts l :=
  List.le_sum_of_mem (List.mem_map_of_mem Prod.snd hx)

theorem enumCounts_map_snd_sum (pal : List (Lab × ℕ)) :
    ∀ i, ((enumCounts i pal).map Prod.snd).sum = sumCounts pal := by
  induction pal with
  | nil => intro i; rfl
  | cons e rest ih =>
    intro i
    rw [enumCounts]
    simp [sumCounts] at ih ⊢
    rw [ih]

/-- The exporter preserves the total weight: the counts of the
index→count map are exactly the palette's counts. -/
theorem distil_palette_sum (toRgb : Lab → Rgb) (pal : List (Lab × ℕ)) :
    sumColorCount (distil_palette toRgb pal) = sumCounts pal := by
  rw [sumColorCount, distil_palette]
  exact enumCounts_map_snd_sum pal 0

set_option maxRecDepth 40000 in
/-- Counterexample to C1: the histogram counts the raw NeuQuant color
map (256 entries), not the reassigned pixel stream, so on `img0` (three
surviving pixels) the counts of a successful distillation sum to 256,
not 3. -/
theorem C1_count_conservation_refuted :
    (distil_new nq0 toLab0 toRgb0 dL img0).map sumColorCount = Except.ok 256
      ∧ survivorCount img0 = 3 ∧ NQ_PALETTE_SIZE = 256 ∧ (256 : ℕ) ≠ 3 :=
  ⟨rfl, rfl, rfl, by norm_num⟩

/-- C1 (amended): for every image that distils successfully, the sum of
the counts in the returned `color_count` map equals the number of
entries of the quantizer's color map — `NQ_PALETTE_SIZE` = 256 — because
`count_colors_as_lab` is fed `color_map_rgb()` (the palette itself), not
a stream of pixels reassigned to their nearest quantized color. -/
theorem C1_sum_is_palette_size (nq : List ℕ → List Rgb) (toLab : Rgb → Lab) (toRgb : Lab → Rgb)
    (d : Lab → Lab → ℚ) (img : List Rgba) (r : Distil)
    (hnq : ∀ chans, (nq chans).length = NQ_PALETTE_SIZE)
    (hok : distil_new nq toLab toRgb d img = Except.ok r) :
    sumColorCount r = NQ_PALETTE_SIZE := by
  rw [distil_new, quantize] at hok
  match hgp : get_pixels img with
  | Except.error e =>
    rw [hgp] at hok
    exact absurd hok (by simp [Except.map])
  | Except.ok chans =>
    rw [hgp] at hok
    have hr : r = distil_palette toRgb
        (remove_similar_colors d (count_colors_as_lab toLab (nq chans))) := by
      have : Except.ok (α := Distil) (ε := DistilError) (distil_palette toRgb
          (remove_similar_colors d (count_colors_as_lab toLab (nq chans)))) = Except.ok r := hok
      exact (Except.ok.inj this).symm
    have hbound : ∀ x ∈ count_colors_as_lab toLab (nq chans), x.2 < 2 ^ 24 := by
      intro x hx
      have hle : x.2 ≤ sumCounts (count_colors_as_lab toLab (nq chans)) := count_le_sumCounts hx
      rw [count_colors_as_lab_sum, hnq] at hle
      have : NQ_PALETTE_SIZE < 2 ^ 24 := by norm_num [NQ_PALETTE_SIZE]
      omega
    rw [hr, distil_palette_sum, remove_similar_colors_sum d _ hbound,
      count_colors_as_lab_sum, hnq]

set_option maxRecDepth 40000 in
/-- Witness for C1 (amended): on `img0` with the concrete collaborators
the pipeline succeeds and the counts sum to `NQ_PALETTE_SIZE`. -/
theorem C1_sum_is_palette_size_witness :
    distil_new nq0 toLab0 toRgb0 dL img0 =
        Except.ok (distil_palette toRgb0
          (remove_similar_colors dL (count_colors_as_lab toLab0 (nq0 []))))
      ∧ sumColorCount (distil_palette toRgb0
          (remove_similar_colors dL (count_colors_as_lab toLab0 (nq0 [])))) = NQ_PALETTE_SIZE :=
  ⟨rfl,
    C1_sum_is_palette_size nq0 toLab0 toRgb0 dL img0 _
      (fun chans => by simp [nq0]) rfl⟩

theorem listGetD_lt {α : Type} (l : List α) (i : ℕ) (dflt : α) (h : i < l.length) :
    l.getD i dflt = l.get ⟨i, h⟩ := by
  rw [List.getD_eq_getElem?_getD, List.getElem?_eq_getElem h]
  rfl

theorem enumCounts_length (pal : List (Lab × ℕ)) :
    ∀ i, (enumCounts i pal).length = pal.length := by
  induction pal with
  | nil => intro i; rfl
  | cons e rest ih =>
    intro i
    rw [enumCounts]
    simp [ih]

theorem enumCounts_getD (pal : List (Lab × ℕ)) :
    ∀ i j, j < pal.length →
      (enumCounts i pal).getD j (0, 0) = (i + j, (pal.getD j defaultEntry).2) := by
  induction pal with
  | nil => intro i j hj; exact absurd hj (by simp)
  | cons e rest ih =>
    intro i j hj
    match j with
    | 0 => rw [enumCounts]; rfl
    | j0 + 1 =>
      rw [enumCounts, List.getD_cons_succ, List.getD_cons_succ,
        ih (i + 1) j0 (by simpa using hj)]
      have : i + 1 + j0 = i + (j0 + 1) := by omega
      rw [this]

theorem sorted_getD_counts {pal : List (Lab × ℕ)} (h : List.Sorted countGE pal) :
    ∀ i j, i ≤ j → j < pal.length →
      (pal.getD j defaultEntry).2 ≤ (pal.getD i defaultEntry).2 := by
  intro i j hij hj
  have hi : i < pal.length := Nat.lt_of_le_of_lt hij hj
  rw [listGetD_lt _ _ _ hj, listGetD_lt _ _ _ hi]
  rcases Nat.eq_or_lt_of_le hij with heq | hlt
  · subst heq
    exact le_refl _
  · exact List.pairwise_iff_get.mp h ⟨i, hi⟩ ⟨j, hj⟩ hlt

theorem finalPalette_sorted (nq : List ℕ → List Rgb) (toLab : Rgb → Lab) (d : Lab → Lab → ℚ)
    (img : List Rgba) : List.Sorted countGE (finalPalette nq toLab d img) := by
  rw [finalPalette]
  cases get_pixels img with
  | error e => exact List.sorted_nil
  | ok chans => exact List.sorted_insertionSort countGE _

/-- C8: a successful result is exactly the positional export of the
final merged palette: `colors` and `color_count` have the palette's
length, entry `i` of `colors` is the RGB conversion of palette entry `i`,
`color_count` maps `i` to exactly that entry's count, and the counts are
non-increasing by position. -/
theorem C8_export_positional (nq : List ℕ → List Rgb) (toLab : Rgb → Lab) (toRgb : Lab → Rgb)
    (d : Lab → Lab → ℚ) (img : List Rgba) (r : Distil)
    (hok : distil_new nq toLab toRgb d img = Except.ok r) :
    r = distil_palette toRgb (finalPalette nq toLab d img)
      ∧ List.Sorted countGE (finalPalette nq toLab d img)
      ∧ r.colors.length = (finalPalette nq toLab d img).length
      ∧ r.color_count.length = (finalPalette nq toLab d img).length
      ∧ (∀ j, j < (finalPalette nq toLab d img).length →
          r.colors.getD j ⟨0, 0, 0⟩ = toRgb (((finalPalette nq toLab d img).getD j defaultEntry).1)
          ∧ r.color_count.getD j (0, 0) =
              (j, ((finalPalette nq toLab d img).getD j defaultEntry).2))
      ∧ (∀ i j, i ≤ j → j < r.color_count.length →
          (r.color_count.getD j (0, 0)).2 ≤ (r.color_count.getD i (0, 0)).2) := by
  have hr : r = distil_palette toRgb (finalPalette nq toLab d img) := by
    rw [distil_new, quantize] at hok
    rw [finalPalette]
    match hgp : get_pixels img with
    | Except.error e =>
      rw [hgp] at hok
      exact absurd hok (by simp [Except.map])
    | Except.ok chans =>
      rw [hgp] at hok
      have : Except.ok (α := Distil) (ε := DistilError) (distil_palette toRgb
          (remove_similar_colors d (count_colors_as_lab toLab (nq chans)))) = Except.ok r := hok
      exact (Except.ok.inj this).symm
  have hsorted := finalPalette_sorted nq toLab d img
  have hclen : r.colors.length = (finalPalette nq toLab d img).length := by
    rw [hr, distil_palette]
    exact List.length_map _ _
  have hcclen : r.color_count.length = (finalPalette nq toLab d img).length := by
    rw [hr, distil_palette]
    exact enumCounts_length _ 0
  have hpos : ∀ j, j < (finalPalette nq toLab d img).length →
      r.colors.getD j ⟨0, 0, 0⟩ = toRgb (((finalPalette nq toLab d img).getD j defaultEntry).1)
      ∧ r.color_count.getD j (0, 0) =
          (j, ((finalPalette nq toLab d img).getD j defaultEntry).2) := by
    intro j hj
    constructor
    · rw [hr, distil_palette]
      have hjm : j < ((finalPalette nq toLab d img).map (fun e => toRgb e.1)).length := by
        rw [List.length_map]
        exact hj
      rw [listGetD_lt _ _ _ hjm, listGetD_lt _ _ _ hj]
      simp
    · rw [hr, distil_palette]
      have := enumCounts_getD (finalPalette nq toLab d img) 0 j hj
      simpa using this
  refine ⟨hr, hsorted, hclen, hcclen, hpos, ?_⟩
  intro i j hij hj
  rw [hcclen] at hj
  have hi : i < (finalPalette nq toLab d img).length := Nat.lt_of_le_of_lt hij hj
  rw [(hpos j hj).2, (hpos i hi).2]
  exact sorted_getD_counts hsorted i j hij hj

set_option maxRecDepth 40000 in
/-- Witness for C8: the concrete successful run on `img0` is the
positional export of its merged palette, with non-increasing counts. -/
theorem C8_export_positional_witness :
    distil_palette toRgb0 (finalPalette nq0 toLab0 dL img0) =
        distil_palette toRgb0 (finalPalette nq0 toLab0 dL img0)
      ∧ List.Sorted countGE (finalPalette nq0 toLab0 dL img0)
      ∧ (distil_palette toRgb0 (finalPalette nq0 toLab0 dL img0)).colors.length =
          (finalPalette nq0 toLab0 dL img0).length
      ∧ (distil_palette toRgb0 (finalPalette nq0 toLab0 dL img0)).color_count.length =
          (finalPalette nq0 toLab0 dL img0).length
      ∧ (∀ j, j < (finalPalette nq0 toLab0 dL img0).length →
          (distil_palette toRgb0 (finalPalette nq0 toLab0 dL img0)).colors.getD j ⟨0, 0, 0⟩ =
              toRgb0 (((finalPalette nq0 toLab0 dL img0).getD j defaultEntry).1)
          ∧ (distil_palette toRgb0 (finalPalette nq0 toLab0 dL img0)).color_count.getD j (0, 0) =
              (j, ((finalPalette nq0 toLab0 dL img0).getD j defaultEntry).2))
      ∧ (∀ i j, i ≤ j →
          j < (distil_palette toRgb0 (finalPalette nq0 toLab0 dL img0)).color_count.length →
          ((distil_palette toRgb0 (finalPalette nq0 toLab0 dL img0)).color_count.getD j (0, 0)).2 ≤
            ((distil_palette toRgb0 (finalPalette nq0 toLab0 dL img0)).color_count.getD i (0, 0)).2) :=
  C8_export_positional nq0 toLab0 toRgb0 dL img0
    (distil_palette toRgb0 (finalPalette nq0 toLab0 dL img0)) rfl

/-!  The sampler's scaling rule. -/

theorem sqrt_1050000 : Nat.sqrt 1050000 = 1024 := by
  have h1 : 1024 ≤ Nat.sqrt 1050000 := Nat.le_sqrt.mpr (by norm_num)
  have h2 : Nat.sqrt 1050000 < 1025 := Nat.sqrt_lt.mpr (by norm_num)
  omega

theorem scaledWidth_50_21 : scaledWidth 50 21 = 48 := by
  have : MAX_SAMPLE_COUNT * 50 * 21 = 1050000 := by norm_num [MAX_SAMPLE_COUNT]
  rw [scaledWidth, this, sqrt_1050000]

/-- The square of the computed width, times the height, stays within
budget times the original width. -/
theorem scaledWidth_sq_le (w h : ℕ) (hh : 0 < h) :
    scaledWidth w h * scaledWidth w h * h ≤ MAX_SAMPLE_COUNT * w := by
  have hs : Nat.sqrt (MAX_SAMPLE_COUNT * w * h) * Nat.sqrt (MAX_SAMPLE_COUNT * w * h) ≤
      MAX_SAMPLE_COUNT * w * h := Nat.sqrt_le _
  have hdm : scaledWidth w h * h ≤ Nat.sqrt (MAX_SAMPLE_COUNT * w * h) := by
    rw [scaledWidth]
    exact Nat.div_mul_le_self _ h
  have hsq : (scaledWidth w h * h) * (scaledWidth w h * h) ≤ MAX_SAMPLE_COUNT * w * h :=
    le_trans (Nat.mul_le_mul hdm hdm) hs
  have hrearr : (scaledWidth w h * h) * (scaledWidth w h * h) =
      (scaledWidth w h * scaledWidth w h * h) * h := by ring
  rw [hrearr] at hsq
  exact Nat.le_of_mul_le_mul_right hsq hh

theorem scaledWidth_lt (w h : ℕ) (hh : 0 < h) (hbig : MAX_SAMPLE_COUNT < w * h) :
    scaledWidth w h < w := by
  have hw : 0 < w := by
    rcases Nat.eq_zero_or_pos w with h0 | h0
    · rw [h0] at hbig
      simp [MAX_SAMPLE_COUNT] at hbig
    · exact h0
  have h1 := scaledWidth_sq_le w h hh
  have h2 : MAX_SAMPLE_COUNT * w < w * w * h := by
    calc MAX_SAMPLE_COUNT * w < (w * h) * w := by
          exact (Nat.mul_lt_mul_right hw).mpr hbig
      _ = w * w * h := by ring
  have h3 : scaledWidth w h * scaledWidth w h * h < w * w * h := lt_of_le_of_lt h1 h2
  have h4 : scaledWidth w h * scaledWidth w h < w * w := by
    by_contra hcon
    push_neg at hcon
    exact absurd (Nat.mul_le_mul_right h hcon) (not_le.mpr h3)
  by_contra hcon
  push_neg at hcon
  exact absurd (Nat.mul_le_mul hcon hcon) (not_le.mpr h4)

/-- C3 (amended): an image whose `width * height` (as 32-bit arithmetic)
is at or below the budget passes through unchanged; an image above the
budget is downscaled so that the new width is the TRUNCATED (not
rounded) square root of `budget * aspect_ratio`, the height is derived
from the same width:height ratio (and at least 1), and — whenever the
derived height does not hit the 1-pixel clamp — the resulting pixel
count is at or below the budget. -/
theorem C3_scale_rule (w h : ℕ) (hh : 0 < h) (hbound : w * h < 2 ^ 32) :
    (w * h ≤ MAX_SAMPLE_COUNT → scale_img ⟨w, h⟩ = ⟨w, h⟩)
    ∧ (MAX_SAMPLE_COUNT < w * h → w ≤ h * scaledWidth w h →
        scale_img ⟨w, h⟩ = ⟨scaledWidth w h, h * scaledWidth w h / w⟩
          ∧ scaledWidth w h * (h * scaledWidth w h / w) ≤ MAX_SAMPLE_COUNT) := by
  constructor
  · intro hle
    rw [scale_img]
    rw [Nat.mod_eq_of_lt hbound]
    rw [if_neg (not_lt.mpr hle)]
  · intro hbig hclamp
    have hw : 0 < w := by
      rcases Nat.eq_zero_or_pos w with h0 | h0
      · rw [h0] at hbig
        simp [MAX_SAMPLE_COUNT] at hbig
      · exact h0
    have hlt := scaledWidth_lt w h hh hbig
    have heq : scale_img ⟨w, h⟩ = ⟨scaledWidth w h, h * scaledWidth w h / w⟩ := by
      rw [scale_img]
      rw [Nat.mod_eq_of_lt hbound, if_pos hbig]
      show (⟨(resizeDims w h (scaledWidth w h) h).1, (resizeDims w h (scaledWidth w h) h).2⟩ :
        Dims) = _
      rw [resizeDims, if_pos (by
        calc scaledWidth w h * h ≤ w * h := Nat.mul_le_mul_right h (le_of_lt hlt)
          _ = h * w := by ring)]
      have hmax : max (h * scaledWidth w h / w) 1 = h * scaledWidth w h / w := by
        have : 1 ≤ h * scaledWidth w h / w := (Nat.le_div_iff_mul_le hw).mpr (by omega)
        omega
      rw [hmax]
    refine ⟨heq, ?_⟩
    have hstep1 : scaledWidth w h * (h * scaledWidth w h / w) ≤
        scaledWidth w h * (h * scaledWidth w h) / w := by
      rw [Nat.le_div_iff_mul_le hw]
      have := Nat.div_mul_le_self (h * scaledWidth w h) w
      calc scaledWidth w h * (h * scaledWidth w h / w) * w
          = scaledWidth w h * (h * scaledWidth w h / w * w) := by ring
        _ ≤ scaledWidth w h * (h * scaledWidth w h) := Nat.mul_le_mul_left _ this
    have hstep2 : scaledWidth w h * (h * scaledWidth w h) / w ≤ MAX_SAMPLE_COUNT := by
      have h1 : scaledWidth w h * (h * scaledWidth w h) = scaledWidth w h * scaledWidth w h * h :=
        by ring
      rw [h1]
      have h2 := scaledWidth_sq_le w h hh
      calc scaledWidth w h * scaledWidth w h * h / w ≤ MAX_SAMPLE_COUNT * w / w :=
            Nat.div_le_div_right h2
        _ = MAX_SAMPLE_COUNT := Nat.mul_div_cancel MAX_SAMPLE_COUNT hw
    exact le_trans hstep1 hstep2

/-- Counterexample to C3: on a 50×21 image (1050 pixels, above budget)
the code's new width is the truncated root 48, not the claimed rounded
root 49. -/
theorem C3_round_refuted :
    scale_img ⟨50, 21⟩ = ⟨48, 20⟩ ∧ roundSqrtClaim 50 21 = 49
      ∧ (scale_img ⟨50, 21⟩).width ≠ roundSqrtClaim 50 21 := by
  have h1 : scale_img ⟨50, 21⟩ = ⟨48, 20⟩ := by
    rw [scale_img]
    norm_num [MAX_SAMPLE_COUNT, scaledWidth_50_21, resizeDims]
  have h2 : roundSqrtClaim 50 21 = 49 := by
    rw [roundSqrtClaim]
    norm_num [scaledWidth_50_21, MAX_SAMPLE_COUNT]
  refine ⟨h1, h2, ?_⟩
  rw [h1, h2]
  norm_num

/-- Witness for C3 (amended): the 50×21 image is downscaled to 48×20
(968 ≤ 1000 pixels), and a 20×50 image (1000 pixels, at budget) passes
through unchanged. -/
theorem C3_scale_rule_witness :
    scale_img ⟨20, 50⟩ = ⟨20, 50⟩
      ∧ scale_img ⟨50, 21⟩ = ⟨scaledWidth 50 21, 21 * scaledWidth 50 21 / 50⟩
      ∧ scaledWidth 50 21 * (21 * scaledWidth 50 21 / 50) ≤ MAX_SAMPLE_COUNT := by
  have hp := (C3_scale_rule 20 50 (by norm_num) (by norm_num)).1 (by norm_num [MAX_SAMPLE_COUNT])
  have hs := (C3_scale_rule 50 21 (by norm_num) (by norm_num)).2
    (by norm_num [MAX_SAMPLE_COUNT]) (by rw [scaledWidth_50_21]; norm_num)
  exact ⟨hp, hs.1, hs.2⟩

/-- Witness for C10: a PNG file that fails to decode surfaces the `Io`
error with the path and cause. -/
theorem C10_io_classification_witness :
    (FileProbe.sniffed ImageFormat.png = FileProbe.sniffed ImageFormat.png ∨
        FileProbe.sniffed ImageFormat.png = FileProbe.sniffed ImageFormat.jpeg)
      ∧ (Except.error 7 : Except ℕ (List Rgba)) = Except.error 7 ∧ "img.png" = "img.png" :=
  C10_io_classification.2.2 (FileProbe.sniffed ImageFormat.png) (Except.error 7) "img.png"
    nq0 toLab0 toRgb0 dL "img.png" 7 rfl

end DistilSpec
